import Mathlib

/-!
Verification development for the pyrpn calculator engine
(`src/Calculator.py`, class `Calculator` and `OperationButton`).

Modelling choices:
* Numbers (`NUMTYPE=float` in the source) are modelled as `ℚ`; the claims
  under study are exact arithmetic identities.
* The Python stack is a list with the top at `stack[-1]`; we store the
  same stack with the top at the *head* of the list, so `append`/`[-1]`/
  `pop()` become `cons`/`head`/`tail`.
* The entry buffer (`self.entry`, a Python `str` or `None`) is an
  `Option (List Char)`.
* The memory bank keeps its Python order (`memory[pos-1]` is position
  `pos`).  `getMemory`/`saveMemory` are modelled for the 1-based positions
  the spec declares valid (spec section 7 declares non-positive positions
  to be API precondition violations).
* The GUI (`self.gui`) only receives notifications; the sole notification
  the claims mention is `gui.error()`, modelled by the `err` flag which a
  press sets to `true` when the engine signals the error indicator.
  `drawStack`/`entry` notifications carry no engine state and are dropped.
* A Python exception (`ValueError`/`ArithmeticError`, including
  `ZeroDivisionError`) raised by an operation's stored function is
  modelled by the function returning `none`.  All engine operations are
  total Lean functions: the embedding returning a state is the statement
  that no exception escapes to the driver.
-/

namespace Calculator

/-- `Calculator.PRECISION` (src/Calculator.py:204). -/
def PRECISION : Nat := 8

/-- Engine state: entry buffer, register stack (top first), memory bank,
and the presentation port's error indicator. -/
structure CalcState where
  entry  : Option (List Char)
  stack  : List ℚ
  memory : List ℚ
  err    : Bool
deriving DecidableEq

/-- The state built by `Calculator.__init__` (src/Calculator.py:211). -/
def initState : CalcState := ⟨none, [], [], false⟩

/-- `gui.error()`: signal the error indicator (src/pyrpn.py:332). -/
def errOn (s : CalcState) : CalcState := { s with err := true }

/-- Python's `str.partition('.')`: the text before the first `'.'`, whether
a `'.'` occurs, and the text after it (src/Calculator.py:257). -/
def partitionDot : List Char → List Char × Bool × List Char
  | [] => ([], false, [])
  | c :: cs =>
    if c = '.' then ([], true, cs)
    else
      let p := partitionDot cs
      (c :: p.1, p.2.1, p.2.2)

/-- Numeric value of a digit character. -/
def digitVal (c : Char) : ℚ := ((c.toNat - 48 : ℕ) : ℚ)

/-- Value of a digit string read as an integer. -/
def parseDigits (cs : List Char) : ℚ := cs.foldl (fun a c => 10 * a + digitVal c) 0

/-- Value of a digit string read as a fractional part. -/
def parseFrac (cs : List Char) : ℚ := cs.foldr (fun c a => (digitVal c + a) / 10) 0

/-- Python `float(text)` on the decimal texts the entry buffer produces
(whole part, optional `'.'`, fractional part); used by `finalizeEntry`
for `NUMTYPE('0' + entry)` (src/Calculator.py:276). -/
def parseNum (cs : List Char) : ℚ :=
  let p := partitionDot cs
  parseDigits p.1 + parseFrac p.2.2

/-- Python `stack[-1] = v` after `if not stack: stack.append(0)`:
replace the top of the stack, creating it if the stack is empty
(src/Calculator.py:274-276). -/
def setTop (v : ℚ) : List ℚ → List ℚ
  | [] => [v]
  | _ :: rest => v :: rest

/-- `Calculator.finalizeEntry` (src/Calculator.py:270-278).
`if not self.entry: return` is a no-op both for `None` and for the empty
string; otherwise the top register becomes `NUMTYPE('0' + entry)` and the
buffer returns to idle. -/
def finalizeEntry (s : CalcState) : CalcState :=
  match s.entry with
  | none => s
  | some [] => s
  | some t => { s with stack := setTop (parseNum ('0' :: t)) s.stack, entry := none }

/-- `Calculator.push` (src/Calculator.py:221-226). The `silent` flag only
controls a GUI redraw and has no engine effect. -/
def push (v : ℚ) (s : CalcState) : CalcState :=
  let s1 := finalizeEntry s
  { s1 with stack := v :: s1.stack }

/-- `Calculator.pop` (src/Calculator.py:228-236): finalize, then remove and
return the top, or return `0` leaving the stack empty. -/
def pop (s : CalcState) : ℚ × CalcState :=
  let s1 := finalizeEntry s
  match s1.stack with
  | [] => (0, s1)
  | v :: rest => (v, { s1 with stack := rest })

/-- `Calculator.getRegister` (src/Calculator.py:238-249): read register
`pos` (X is 0), defaulting to `0` past the stack depth. -/
def getRegister (s : CalcState) (pos : Nat) : ℚ := s.stack.getD pos 0

/-- `Calculator.enterDigit` (src/Calculator.py:251-268). -/
def enterDigit (d : Char) (s : CalcState) : CalcState :=
  let s1 := match s.entry with
            | none => { push 0 s with entry := some [] }
            | some _ => s
  match s1.entry with
  | none => s1
  | some t =>
    let p := partitionDot t
    if (if p.2.1 then PRECISION ≤ p.2.2.length else PRECISION ≤ p.1.length) then s1
    else if t = ['0'] then { s1 with entry := some [d] }
    else { s1 with entry := some (t ++ [d]) }

/-- `Calculator.decimal` (src/Calculator.py:296-306). -/
def decimal (s : CalcState) : CalcState :=
  match s.entry with
  | none => { push 0 s with entry := some ['0', '.'] }
  | some [] => { push 0 s with entry := some ['0', '.'] }
  | some t => if '.' ∈ t then s else { s with entry := some (t ++ ['.']) }

/-- `Calculator.backspace` (src/Calculator.py:308-317). -/
def backspace (s : CalcState) : CalcState :=
  match s.entry with
  | none => s
  | some [] => s
  | some t =>
    let t' := t.dropLast
    if t' = [] ∨ t' = ['0'] then (pop { s with entry := none }).2
    else { s with entry := some t' }

/-- `Calculator.enter` (src/Calculator.py:280-289): finalize if editing,
else duplicate X (pushing `0` when the stack is empty). -/
def enter (s : CalcState) : CalcState :=
  match s.entry with
  | some (_ :: _) => finalizeEntry s
  | _ =>
    match s.stack with
    | v :: _ => push v s
    | [] => push 0 s

/-- `Calculator.exchange` (src/Calculator.py:319-326): finalize, pop X and
Y silently, push X back silently, then push Y. -/
def exchange (s : CalcState) : CalcState :=
  let s1 := finalizeEntry s
  let x := (pop s1).1
  let s2 := (pop s1).2
  let y := (pop s2).1
  let s3 := (pop s2).2
  push y (push x s3)

/-- `Calculator.clearStack` (src/Calculator.py:328-332). -/
def clearStack (s : CalcState) : CalcState := { s with stack := [], entry := none }

/-- The guarded `self.memory.extend([0] * (pos - len(self.memory)))` of
`Calculator.saveMemory` (src/Calculator.py:338-339): zero-fill the memory
so that it is at least `pos` entries long. -/
def padMemory (m : List ℚ) (pos : Nat) : List ℚ :=
  if m.length < pos then m ++ List.replicate (pos - m.length) 0 else m

/-- `Calculator.saveMemory` (src/Calculator.py:334-341): finalize,
zero-fill the memory up to `pos`, then store register X at slot `pos`. -/
def saveMemory (pos : Nat) (s : CalcState) : CalcState :=
  let s1 := finalizeEntry s
  { s1 with memory := (padMemory s1.memory pos).set (pos - 1) (getRegister s1 0) }

/-- `Calculator.getMemory` (src/Calculator.py:351-357). -/
def getMemory (s : CalcState) (pos : Nat) : ℚ :=
  if pos ≤ s.memory.length then s.memory.getD (pos - 1) 0 else 0

/-- `Calculator.loadMemory` (src/Calculator.py:343-349). -/
def loadMemory (pos : Nat) (s : CalcState) : CalcState :=
  push (getMemory s pos) s

/-- `OperationButton.do`, arity-1 branch (src/Calculator.py:89-100):
finalize, pop X silently, apply the stored function; on a raised
`ValueError`/`ArithmeticError` (returned `none`) or a result
`>= 10 ** PRECISION`, push X back and signal the error indicator;
otherwise push the result. -/
def do1 (f : ℚ → Option ℚ) (s : CalcState) : CalcState :=
  let s1 := finalizeEntry s
  let x := (pop s1).1
  let s2 := (pop s1).2
  match f x with
  | some v => if (10 : ℚ) ^ PRECISION ≤ v then errOn (push x s2) else push v s2
  | none => errOn (push x s2)

/-- `OperationButton.do`, arity-2 branch (src/Calculator.py:101-114):
finalize, pop X then Y silently, apply the stored function to `(X, Y)`;
on failure push Y back silently, push X, and signal the error
indicator; otherwise push the result. -/
def do2 (f : ℚ → ℚ → Option ℚ) (s : CalcState) : CalcState :=
  let s1 := finalizeEntry s
  let x := (pop s1).1
  let s2 := (pop s1).2
  let y := (pop s2).1
  let s3 := (pop s2).2
  match f x y with
  | some v => if (10 : ℚ) ^ PRECISION ≤ v then errOn (push x (push y s3)) else push v s3
  | none => errOn (push x (push y s3))

/-- The `-` button's function `lambda x, y: y - x` (src/Calculator.py:393). -/
def subLam : ℚ → ℚ → Option ℚ := fun x y => some (y - x)

/-- The `*` button's function `lambda x, y: x * y` (src/Calculator.py:395). -/
def mulLam : ℚ → ℚ → Option ℚ := fun x y => some (x * y)

/-- The `/` button's function `lambda x, y: y / x` (src/Calculator.py:396);
`y / 0` raises `ZeroDivisionError`, an `ArithmeticError`. -/
def divLam : ℚ → ℚ → Option ℚ := fun x y => if x = 0 then none else some (y / x)

/-- The `1/x` alternate function `lambda x: 1/x` (src/Calculator.py:397). -/
def recipLam : ℚ → Option ℚ := fun x => if x = 0 then none else some (1 / x)

/-- The `Sqr` alternate function `lambda x: math.pow(x, 2)`
(src/Calculator.py:423). -/
def sqrLam : ℚ → Option ℚ := fun x => some (x * x)

/-- The failure condition of an arity-1 press as the source tests it
(src/Calculator.py:93-98): the function raised, or the computed value is
`>= 10 ** PRECISION`. -/
def fails1 (f : ℚ → Option ℚ) (x : ℚ) : Bool :=
  match f x with
  | none => true
  | some v => decide ((10 : ℚ) ^ PRECISION ≤ v)

/-- The failure condition of an arity-2 press (src/Calculator.py:106-111). -/
def fails2 (f : ℚ → ℚ → Option ℚ) (x y : ℚ) : Bool :=
  match f x y with
  | none => true
  | some v => decide ((10 : ℚ) ^ PRECISION ≤ v)

/-! ### Elementary evaluation lemmas -/

@[simp] lemma digitVal_zero : digitVal '0' = 0 := by
  have h : '0'.toNat - 48 = 0 := by decide
  simp [digitVal, h]

@[simp] lemma digitVal_two : digitVal '2' = 2 := by
  have h : '2'.toNat - 48 = 2 := by decide
  simp [digitVal, h]

@[simp] lemma digitVal_five : digitVal '5' = 5 := by
  have h : '5'.toNat - 48 = 5 := by decide
  simp [digitVal, h]

@[simp] lemma digitVal_nine : digitVal '9' = 9 := by
  have h : '9'.toNat - 48 = 9 := by decide
  simp [digitVal, h]

lemma getD_set_self (l : List ℚ) (i : ℕ) (v : ℚ) (h : i < l.length) :
    (l.set i v).getD i 0 = v := by
  induction l generalizing i with
  | nil => simp at h
  | cons a t ih =>
    cases i with
    | zero => simp [List.set]
    | succ j => simpa [List.set] using ih j (by simpa using h)

lemma getD_set_ne (l : List ℚ) (i j : ℕ) (v : ℚ) (h : i ≠ j) :
    (l.set i v).getD j 0 = l.getD j 0 := by
  induction l generalizing i j with
  | nil => simp [List.set]
  | cons a t ih =>
    cases i with
    | zero =>
      cases j with
      | zero => exact absurd rfl h
      | succ k => simp [List.set]
    | succ i' =>
      cases j with
      | zero => simp [List.set]
      | succ k => simpa [List.set] using ih i' k (fun hh => h (by rw [hh]))

lemma getD_replicate_zero (k j : ℕ) : (List.replicate k (0 : ℚ)).getD j 0 = 0 := by
  induction k generalizing j with
  | zero => simp
  | succ n ih => cases j <;> simp [List.replicate, ih]

lemma getD_pad (l : List ℚ) (k j : ℕ) :
    (l ++ List.replicate k 0).getD j 0 = l.getD j 0 := by
  rcases lt_or_le j l.length with h | h
  · exact List.getD_append _ _ _ _ h
  · rw [List.getD_append_right _ _ _ _ h, List.getD_eq_default _ _ h, getD_replicate_zero]

/-! ### Lemmas about `partitionDot` -/

lemma partitionDot_of_not_mem {t : List Char} (h : '.' ∉ t) :
    partitionDot t = (t, false, []) := by
  induction t with
  | nil => rfl
  | cons c cs ih =>
    have hc : ¬ c = '.' := by rintro rfl; exact h (List.mem_cons_self _ _)
    have htl : '.' ∉ cs := fun hm => h (List.mem_cons_of_mem _ hm)
    simp [partitionDot, hc, ih htl]

lemma sep_false_not_mem {t : List Char} (h : (partitionDot t).2.1 = false) : '.' ∉ t := by
  induction t with
  | nil => simp
  | cons c cs ih =>
    by_cases hc : c = '.'
    · subst hc; simp [partitionDot] at h
    · simp only [partitionDot, if_neg hc] at h
      intro hm
      rcases List.mem_cons.mp hm with h1 | h1
      · exact hc h1.symm
      · exact ih h h1

lemma partitionDot_append_dot {t : List Char} (h : '.' ∉ t) :
    partitionDot (t ++ ['.']) = (t, true, []) := by
  induction t with
  | nil => rfl
  | cons c cs ih =>
    have hc : ¬ c = '.' := by rintro rfl; exact h (List.mem_cons_self _ _)
    have htl : '.' ∉ cs := fun hm => h (List.mem_cons_of_mem _ hm)
    simp [partitionDot, hc, ih htl]

lemma partitionDot_append_of_sep {t : List Char} (h : (partitionDot t).2.1 = true) (c : Char) :
    partitionDot (t ++ [c]) = ((partitionDot t).1, true, (partitionDot t).2.2 ++ [c]) := by
  induction t with
  | nil => simp [partitionDot] at h
  | cons a cs ih =>
    by_cases ha : a = '.'
    · subst ha; simp [partitionDot]
    · simp only [List.cons_append, partitionDot, if_neg ha] at h ⊢
      simp [ih h]

lemma partition_bounds_dropLast (t : List Char) (ht : t ≠ [])
    (h1 : (partitionDot t).1.length ≤ PRECISION)
    (h2 : (partitionDot t).2.2.length ≤ PRECISION) :
    (partitionDot t.dropLast).1.length ≤ PRECISION ∧
    (partitionDot t.dropLast).2.2.length ≤ PRECISION := by
  have heq := List.dropLast_append_getLast ht
  set t' := t.dropLast with ht'
  set c := t.getLast ht with hc
  cases hsp : (partitionDot t').2.1 with
  | false =>
    have hnm := sep_false_not_mem hsp
    rw [partitionDot_of_not_mem hnm]
    refine ⟨?_, by simp⟩
    show t'.length ≤ PRECISION
    by_cases hcd : c = '.'
    · rw [← heq, hcd, partitionDot_append_dot hnm] at h1
      exact h1
    · have hnm2 : '.' ∉ t' ++ [c] := by
        intro hmem
        rcases List.mem_append.mp hmem with hx | hx
        · exact hnm hx
        · exact hcd (List.mem_singleton.mp hx).symm
      rw [← heq, partitionDot_of_not_mem hnm2] at h1
      have h1' : t'.length + 1 ≤ PRECISION := by simpa using h1
      omega
  | true =>
    rw [← heq, partitionDot_append_of_sep hsp c] at h1 h2
    have h2' : (partitionDot t').2.2.length + 1 ≤ PRECISION := by simpa using h2
    exact ⟨h1, by omega⟩

/-! ### Lemmas about `finalizeEntry` and finalized states -/

@[simp] lemma finalizeEntry_memory (s : CalcState) : (finalizeEntry s).memory = s.memory := by
  cases h : s.entry with
  | none => simp [finalizeEntry, h]
  | some t => cases t <;> simp [finalizeEntry, h]

@[simp] lemma finalizeEntry_err (s : CalcState) : (finalizeEntry s).err = s.err := by
  cases h : s.entry with
  | none => simp [finalizeEntry, h]
  | some t => cases t <;> simp [finalizeEntry, h]

/-- A state on which `finalizeEntry` is a no-op: idle buffer, or the
(transient) empty text on which `if not self.entry` also returns. -/
def Finalized (s : CalcState) : Prop := s.entry = none ∨ s.entry = some []

lemma finalized_finalizeEntry (s : CalcState) : Finalized (finalizeEntry s) := by
  cases h : s.entry with
  | none => left; simp [finalizeEntry, h]
  | some t =>
    cases t with
    | nil => right; simp [finalizeEntry, h]
    | cons c cs => left; simp [finalizeEntry, h]

lemma finalizeEntry_of_finalized {s : CalcState} (h : Finalized s) : finalizeEntry s = s := by
  rcases h with h | h <;> simp [finalizeEntry, h]

lemma finalizeEntry_idem (s : CalcState) :
    finalizeEntry (finalizeEntry s) = finalizeEntry s :=
  finalizeEntry_of_finalized (finalized_finalizeEntry s)

lemma push_finalized {s : CalcState} (h : Finalized s) (v : ℚ) :
    push v s = { s with stack := v :: s.stack } := by
  simp [push, finalizeEntry_of_finalized h]

lemma pop_finalized_nil {s : CalcState} (h : Finalized s) (hs : s.stack = []) :
    pop s = (0, s) := by
  simp [pop, finalizeEntry_of_finalized h, hs]

lemma pop_finalized_cons {s : CalcState} (h : Finalized s) {v : ℚ} {r : List ℚ}
    (hs : s.stack = v :: r) : pop s = (v, { s with stack := r }) := by
  simp [pop, finalizeEntry_of_finalized h, hs]

lemma push_entry (v : ℚ) (s : CalcState) : (push v s).entry = (finalizeEntry s).entry := rfl

lemma pop_entry (s : CalcState) : (pop s).2.entry = (finalizeEntry s).entry := by
  cases h : (finalizeEntry s).stack <;> simp [pop, h]

@[simp] lemma push_err (v : ℚ) (s : CalcState) : (push v s).err = s.err := by
  simp [push]

@[simp] lemma pop_err (s : CalcState) : (pop s).2.err = s.err := by
  cases h : (finalizeEntry s).stack <;> simp [pop, h]

@[simp] lemma push_memory (v : ℚ) (s : CalcState) : (push v s).memory = s.memory := by
  simp [push]

@[simp] lemma pop_memory (s : CalcState) : (pop s).2.memory = s.memory := by
  cases h : (finalizeEntry s).stack <;> simp [pop, h]

@[simp] lemma errOn_entry (s : CalcState) : (errOn s).entry = s.entry := rfl
@[simp] lemma errOn_stack (s : CalcState) : (errOn s).stack = s.stack := rfl
@[simp] lemma errOn_err (s : CalcState) : (errOn s).err = true := rfl

/-! ### The engine invariant and its preservation -/

/-- Invariant of reachable engine states: whenever the entry buffer holds
text, the text is non-empty (the placeholder `0` has been pushed, so the
stack is non-empty too) and its whole and fractional digit counts are at
most `PRECISION`. -/
def Inv (s : CalcState) : Prop :=
  ∀ t, s.entry = some t →
    t ≠ [] ∧ s.stack ≠ [] ∧
    (partitionDot t).1.length ≤ PRECISION ∧ (partitionDot t).2.2.length ≤ PRECISION

lemma inv_of_entry_none {s : CalcState} (h : s.entry = none) : Inv s := by
  intro t ht
  rw [h] at ht
  exact absurd ht (by simp)

lemma inv_entry_ne_nil {s : CalcState} (h : Inv s) : s.entry ≠ some [] :=
  fun he => (h [] he).1 rfl

lemma finalizeEntry_entry_of_inv {s : CalcState} (h : Inv s) :
    (finalizeEntry s).entry = none := by
  cases he : s.entry with
  | none => simp [finalizeEntry, he]
  | some t =>
    cases t with
    | nil => exact absurd he (inv_entry_ne_nil h)
    | cons c cs => simp [finalizeEntry, he]

lemma inv_errOn {s : CalcState} (h : Inv s) : Inv (errOn s) := h

lemma inv_finalize {s : CalcState} (h : Inv s) : Inv (finalizeEntry s) :=
  inv_of_entry_none (finalizeEntry_entry_of_inv h)

lemma inv_push {s : CalcState} (h : Inv s) (v : ℚ) : Inv (push v s) :=
  inv_of_entry_none (by rw [push_entry, finalizeEntry_entry_of_inv h])

lemma inv_pop {s : CalcState} (h : Inv s) : Inv (pop s).2 :=
  inv_of_entry_none (by rw [pop_entry, finalizeEntry_entry_of_inv h])

lemma inv_clear (s : CalcState) : Inv (clearStack s) := inv_of_entry_none rfl

lemma inv_save {s : CalcState} (h : Inv s) (pos : ℕ) : Inv (saveMemory pos s) :=
  inv_of_entry_none (by
    show (finalizeEntry s).entry = none
    exact finalizeEntry_entry_of_inv h)

lemma inv_load {s : CalcState} (h : Inv s) (pos : ℕ) : Inv (loadMemory pos s) :=
  inv_push h _

lemma inv_enter {s : CalcState} (h : Inv s) : Inv (enter s) := by
  cases he : s.entry with
  | none =>
    cases hs : s.stack with
    | nil => simpa [enter, he, hs] using inv_push h 0
    | cons v r => simpa [enter, he, hs] using inv_push h v
  | some t =>
    cases t with
    | nil => exact absurd he (inv_entry_ne_nil h)
    | cons c cs => simpa [enter, he] using inv_finalize h

lemma inv_exchange {s : CalcState} (h : Inv s) : Inv (exchange s) := by
  have h3 := inv_pop (inv_pop (inv_finalize h))
  exact inv_push (inv_push h3 _) _

lemma inv_do1 {s : CalcState} (h : Inv s) (f : ℚ → Option ℚ) : Inv (do1 f s) := by
  have h2 := inv_pop (inv_finalize h)
  unfold do1
  cases hf : f (pop (finalizeEntry s)).1 with
  | none => simpa [hf] using inv_errOn (inv_push h2 _)
  | some v =>
    simp only [hf]
    split
    · exact inv_errOn (inv_push h2 _)
    · exact inv_push h2 _

lemma inv_do2 {s : CalcState} (h : Inv s) (f : ℚ → ℚ → Option ℚ) : Inv (do2 f s) := by
  have h2 := inv_pop (inv_finalize h)
  have h3 := inv_pop h2
  unfold do2
  cases hf : f (pop (finalizeEntry s)).1 (pop (pop (finalizeEntry s)).2).1 with
  | none => simpa [hf] using inv_errOn (inv_push (inv_push h3 _) _)
  | some v =>
    simp only [hf]
    split
    · exact inv_errOn (inv_push (inv_push h3 _) _)
    · exact inv_push h3 _

lemma isDigit_ne_dot {d : Char} (hd : d.isDigit = true) : d ≠ '.' := by
  rintro rfl
  exact absurd hd (by decide)

lemma inv_enterDigit {s : CalcState} (h : Inv s) {d : Char} (hd : d.isDigit = true) :
    Inv (enterDigit d s) := by
  have hdot : d ≠ '.' := isDigit_ne_dot hd
  have hdnm : ('.' : Char) ∉ [d] := by
    intro hm
    exact hdot (List.mem_singleton.mp hm).symm
  cases he : s.entry with
  | none =>
    simp +decide only [enterDigit, he, partitionDot, PRECISION, List.nil_append]
    intro t ht
    obtain rfl : t = [d] := by
      simpa using ht.symm
    refine ⟨by simp, by simp [push], ?_, ?_⟩
    · rw [partitionDot_of_not_mem hdnm]
      simp [PRECISION]
    · rw [partitionDot_of_not_mem hdnm]
      simp
  | some t0 =>
    obtain ⟨hne, hstk, hw, hdec⟩ := h t0 he
    simp only [enterDigit, he]
    by_cases hrej :
        (if (partitionDot t0).2.1 then PRECISION ≤ (partitionDot t0).2.2.length
         else PRECISION ≤ (partitionDot t0).1.length)
    · rw [if_pos hrej]
      exact h
    · rw [if_neg hrej]
      by_cases h0 : t0 = ['0']
      · rw [if_pos h0]
        intro t ht
        obtain rfl : t = [d] := by simpa using ht.symm
        refine ⟨by simp, hstk, ?_, ?_⟩
        · rw [partitionDot_of_not_mem hdnm]
          simp [PRECISION]
        · rw [partitionDot_of_not_mem hdnm]
          simp
      · rw [if_neg h0]
        intro t ht
        obtain rfl : t = t0 ++ [d] := by simpa using ht.symm
        refine ⟨by simp, hstk, ?_, ?_⟩
        all_goals cases hsp : (partitionDot t0).2.1 with
        | false =>
          have hnm := sep_false_not_mem hsp
          have hnm2 : '.' ∉ t0 ++ [d] := by
            intro hmem
            rcases List.mem_append.mp hmem with hx | hx
            · exact hnm hx
            · exact hdot (List.mem_singleton.mp hx).symm
          rw [partitionDot_of_not_mem hnm2]
          rw [hsp] at hrej
          rw [partitionDot_of_not_mem hnm] at hrej
          simp only [if_false] at hrej
          first
          | · show (t0 ++ [d]).length ≤ PRECISION
              simp only [List.length_append, List.length_singleton]
              simp at hrej
              omega
          | · show List.length ([] : List Char) ≤ PRECISION
              simp
        | true =>
          rw [partitionDot_append_of_sep hsp]
          rw [hsp] at hrej
          simp only [if_true] at hrej
          first
          | · show (partitionDot t0).1.length ≤ PRECISION
              exact hw
          | · show ((partitionDot t0).2.2 ++ [d]).length ≤ PRECISION
              simp only [List.length_append, List.length_singleton]
              simp at hrej
              omega

lemma inv_decimal {s : CalcState} (h : Inv s) : Inv (decimal s) := by
  have hzd : partitionDot ['0', '.'] = (['0'], true, []) := by
    simp +decide [partitionDot]
  cases he : s.entry with
  | none =>
    simp only [decimal, he]
    intro t ht
    obtain rfl : t = ['0', '.'] := by simpa using ht.symm
    exact ⟨by simp, by simp [push], by rw [hzd]; simp [PRECISION], by rw [hzd]; simp⟩
  | some t0 =>
    cases t0 with
    | nil => exact absurd he (inv_entry_ne_nil h)
    | cons c cs =>
      obtain ⟨hne, hstk, hw, hdec⟩ := h _ he
      simp only [decimal, he]
      by_cases hm : '.' ∈ (c :: cs)
      · rw [if_pos hm]
        exact h
      · rw [if_neg hm]
        intro t ht
        obtain rfl : t = (c :: cs) ++ ['.'] := by simpa using ht.symm
        refine ⟨by simp, hstk, ?_, ?_⟩
        · rw [partitionDot_append_dot hm]
          rw [partitionDot_of_not_mem hm] at hw
          exact hw
        · rw [partitionDot_append_dot hm]
          simp

lemma inv_backspace {s : CalcState} (h : Inv s) : Inv (backspace s) := by
  cases he : s.entry with
  | none => simpa [backspace, he] using h
  | some t0 =>
    cases t0 with
    | nil => simpa [backspace, he] using h
    | cons c cs =>
      obtain ⟨hne, hstk, hw, hdec⟩ := h _ he
      simp only [backspace, he]
      by_cases hsmall : (c :: cs).dropLast = [] ∨ (c :: cs).dropLast = ['0']
      · rw [if_pos hsmall]
        refine inv_of_entry_none ?_
        rw [pop_entry]
        simp [finalizeEntry]
      · rw [if_neg hsmall]
        push_neg at hsmall
        intro t ht
        obtain rfl : t = (c :: cs).dropLast := by simpa using ht.symm
        have hb := partition_bounds_dropLast (c :: cs) (by simp) hw hdec
        exact ⟨hsmall.1, hstk, hb.1, hb.2⟩

/-- One engine operation, as invokable by buttons or the driver
(src/Calculator.py:221-357 and `OperationButton.do`).  Trig presses
(src/Calculator.py:144-173) are the composition of a `pop` step and a
`push` step, and mode toggles do not touch this state, so every press the
frontend can fire factors through these steps. -/
inductive Step : CalcState → CalcState → Prop where
  | ofPush (s : CalcState) (v : ℚ) : Step s (push v s)
  | ofPop (s : CalcState) : Step s (pop s).2
  | ofEnterDigit (s : CalcState) (d : Char) (hd : d.isDigit = true) : Step s (enterDigit d s)
  | ofDecimal (s : CalcState) : Step s (decimal s)
  | ofFinalize (s : CalcState) : Step s (finalizeEntry s)
  | ofEnter (s : CalcState) : Step s (enter s)
  | ofBackspace (s : CalcState) : Step s (backspace s)
  | ofExchange (s : CalcState) : Step s (exchange s)
  | ofClear (s : CalcState) : Step s (clearStack s)
  | ofSave (s : CalcState) (pos : ℕ) : Step s (saveMemory pos s)
  | ofLoad (s : CalcState) (pos : ℕ) : Step s (loadMemory pos s)
  | ofOp1 (s : CalcState) (f : ℚ → Option ℚ) : Step s (do1 f s)
  | ofOp2 (s : CalcState) (f : ℚ → ℚ → Option ℚ) : Step s (do2 f s)

/-- States reachable from the initial engine state by engine operations. -/
inductive Reachable : CalcState → Prop where
  | init : Reachable initState
  | step {s s' : CalcState} : Reachable s → Step s s' → Reachable s'

lemma inv_step {s s' : CalcState} (h : Inv s) (hs : Step s s') : Inv s' := by
  cases hs with
  | ofPush v => exact inv_push h v
  | ofPop => exact inv_pop h
  | ofEnterDigit d hd => exact inv_enterDigit h hd
  | ofDecimal => exact inv_decimal h
  | ofFinalize => exact inv_finalize h
  | ofEnter => exact inv_enter h
  | ofBackspace => exact inv_backspace h
  | ofExchange => exact inv_exchange h
  | ofClear => exact inv_clear s
  | ofSave pos => exact inv_save h pos
  | ofLoad pos => exact inv_load h pos
  | ofOp1 f => exact inv_do1 h f
  | ofOp2 f => exact inv_do2 h f

lemma reachable_inv {s : CalcState} (h : Reachable s) : Inv s := by
  induction h with
  | init => exact inv_of_entry_none rfl
  | step _ hstep ih => exact inv_step ih hstep

/-! ### Characterizations of the button operations -/

lemma do1_def (f : ℚ → Option ℚ) (s : CalcState) :
    do1 f s =
      match f (pop (finalizeEntry s)).1 with
      | some v =>
          if (10 : ℚ) ^ PRECISION ≤ v then
            errOn (push (pop (finalizeEntry s)).1 (pop (finalizeEntry s)).2)
          else push v (pop (finalizeEntry s)).2
      | none => errOn (push (pop (finalizeEntry s)).1 (pop (finalizeEntry s)).2) := rfl

lemma do2_def (f : ℚ → ℚ → Option ℚ) (s : CalcState) :
    do2 f s =
      match f (pop (finalizeEntry s)).1 (pop (pop (finalizeEntry s)).2).1 with
      | some v =>
          if (10 : ℚ) ^ PRECISION ≤ v then
            errOn (push (pop (finalizeEntry s)).1
              (push (pop (pop (finalizeEntry s)).2).1 (pop (pop (finalizeEntry s)).2).2))
          else push v (pop (pop (finalizeEntry s)).2).2
      | none =>
          errOn (push (pop (finalizeEntry s)).1
            (push (pop (pop (finalizeEntry s)).2).1 (pop (pop (finalizeEntry s)).2).2)) := rfl

lemma exchange_def (s : CalcState) :
    exchange s =
      push (pop (pop (finalizeEntry s)).2).1
        (push (pop (finalizeEntry s)).1 (pop (pop (finalizeEntry s)).2).2) := rfl

lemma do1_finalize (f : ℚ → Option ℚ) (s : CalcState) :
    do1 f (finalizeEntry s) = do1 f s := by
  rw [do1_def, do1_def, finalizeEntry_idem]

lemma do2_finalize (f : ℚ → ℚ → Option ℚ) (s : CalcState) :
    do2 f (finalizeEntry s) = do2 f s := by
  rw [do2_def, do2_def, finalizeEntry_idem]

lemma do1_failure {s : CalcState} (hfin : Finalized s) (f : ℚ → Option ℚ)
    (hf : fails1 f (pop s).1 = true) :
    do1 f s = errOn (push (pop s).1 (pop s).2) := by
  rw [do1_def, finalizeEntry_of_finalized hfin]
  cases hfx : f (pop s).1 with
  | none => simp [hfx]
  | some v =>
    have hv : (10 : ℚ) ^ PRECISION ≤ v := by simpa [fails1, hfx] using hf
    simp [hfx, if_pos hv]

lemma do2_failure {s : CalcState} (hfin : Finalized s) (f : ℚ → ℚ → Option ℚ)
    (hf : fails2 f (pop s).1 (pop (pop s).2).1 = true) :
    do2 f s = errOn (push (pop s).1 (push (pop (pop s).2).1 (pop (pop s).2).2)) := by
  rw [do2_def, finalizeEntry_of_finalized hfin]
  cases hfx : f (pop s).1 (pop (pop s).2).1 with
  | none => simp [hfx]
  | some v =>
    have hv : (10 : ℚ) ^ PRECISION ≤ v := by simpa [fails2, hfx] using hf
    simp [hfx, if_pos hv]

lemma do2_success {s : CalcState} (hfin : Finalized s) {x y v : ℚ} {r : List ℚ}
    (hs : s.stack = x :: y :: r) (f : ℚ → ℚ → Option ℚ) (hf : f x y = some v)
    (hov : ¬ ((10 : ℚ) ^ PRECISION ≤ v)) :
    do2 f s = { s with stack := v :: r } := by
  have h1 : pop s = (x, { s with stack := y :: r }) := pop_finalized_cons hfin hs
  have h2 : pop { s with stack := y :: r } = (y, { s with stack := r }) :=
    pop_finalized_cons (show Finalized { s with stack := y :: r } from hfin) rfl
  rw [do2_def, finalizeEntry_of_finalized hfin]
  simp only [h1, h2, hf, if_neg hov]
  rw [push_finalized (show Finalized { s with stack := r } from hfin)]

/-- After a failed press, the registers read exactly as in the finalized
pre-press state: restoring one operand. -/
lemma getRegister_restore1 {s : CalcState} (hfin : Finalized s) :
    getRegister (push (pop s).1 (pop s).2) = getRegister s := by
  rcases hst : s.stack with _ | ⟨x, r⟩
  · have h1 : pop s = (0, s) := pop_finalized_nil hfin hst
    simp only [h1]
    rw [push_finalized hfin]
    funext i
    rcases i with _ | i <;> simp [getRegister, hst]
  · have h1 : pop s = (x, { s with stack := r }) := pop_finalized_cons hfin hst
    simp only [h1]
    rw [push_finalized (show Finalized { s with stack := r } from hfin)]
    funext i
    simp [getRegister, hst]

/-- After a failed arity-2 press, Y is pushed back then X, so the
registers read exactly as in the finalized pre-press state. -/
lemma getRegister_restore2 {s : CalcState} (hfin : Finalized s) :
    getRegister (push (pop s).1 (push (pop (pop s).2).1 (pop (pop s).2).2))
      = getRegister s := by
  rcases hst : s.stack with _ | ⟨x, r⟩
  · have h1 : pop s = (0, s) := pop_finalized_nil hfin hst
    simp only [h1]
    rw [push_finalized hfin,
      push_finalized (show Finalized { s with stack := 0 :: s.stack } from hfin)]
    funext i
    rcases i with _ | _ | i <;> simp [getRegister, hst]
  · have h1 : pop s = (x, { s with stack := r }) := pop_finalized_cons hfin hst
    have hfin2 : Finalized { s with stack := r } := hfin
    rcases hr : r with _ | ⟨y, r'⟩
    · subst hr
      have h2 : pop { s with stack := (@List.nil ℚ) } = (0, { s with stack := [] }) :=
        pop_finalized_nil hfin2 rfl
      simp only [h1, h2]
      rw [push_finalized hfin2,
        push_finalized (show Finalized { s with stack := [(0 : ℚ)] } from hfin)]
      funext i
      rcases i with _ | _ | i <;> simp [getRegister, hst]
    · subst hr
      have h2 : pop { s with stack := y :: r' } = (y, { s with stack := r' }) :=
        pop_finalized_cons hfin2 rfl
      simp only [h1, h2]
      rw [push_finalized (show Finalized { s with stack := r' } from hfin),
        push_finalized (show Finalized { s with stack := y :: r' } from hfin)]
      funext i
      simp [getRegister, hst]

@[simp] lemma getRegister_errOn (s : CalcState) : getRegister (errOn s) = getRegister s := rfl

/-! ### Lemmas about the memory bank -/

@[simp] lemma saveMemory_stack (pos : ℕ) (s : CalcState) :
    (saveMemory pos s).stack = (finalizeEntry s).stack := rfl

@[simp] lemma saveMemory_entry (pos : ℕ) (s : CalcState) :
    (saveMemory pos s).entry = (finalizeEntry s).entry := rfl

@[simp] lemma saveMemory_memory (pos : ℕ) (s : CalcState) :
    (saveMemory pos s).memory =
      (padMemory (finalizeEntry s).memory pos).set (pos - 1)
        (getRegister (finalizeEntry s) 0) := rfl

lemma le_length_padMemory (m : List ℚ) (p : ℕ) : p ≤ (padMemory m p).length := by
  unfold padMemory
  split
  · simp
    omega
  · omega

lemma length_le_padMemory (m : List ℚ) (p : ℕ) : m.length ≤ (padMemory m p).length := by
  unfold padMemory
  split <;> simp

lemma getD_padMemory (m : List ℚ) (p j : ℕ) :
    (padMemory m p).getD j 0 = m.getD j 0 := by
  unfold padMemory
  split
  · exact getD_pad _ _ _
  · rfl

lemma getMemory_saveMemory_self (s : CalcState) (p : ℕ) (hp : 1 ≤ p) :
    getMemory (saveMemory p s) p = getRegister (finalizeEntry s) 0 := by
  unfold getMemory
  simp only [saveMemory_memory, List.length_set]
  rw [if_pos (le_length_padMemory _ p)]
  exact getD_set_self _ _ _ (by have := le_length_padMemory (finalizeEntry s).memory p; omega)

/-! ### Claims -/

/-- C5: starting from an idle entry buffer, `enterDigit('5')`,
`enterDecimal()`, `enterDigit('2')`, `finalize()` leaves the top register
equal to the numeric parse of "05.2", i.e. 5.2; and in general, when the
buffer holds non-empty text `t`, `finalizeEntry` sets the top register to
the numeric parse of `'0' :: t` and returns the buffer to idle. -/
theorem entry_sequence_five_point_two :
    (∀ s : CalcState, s.entry = none →
      getRegister (finalizeEntry (enterDigit '2' (decimal (enterDigit '5' s)))) 0
          = parseNum ['0', '5', '.', '2'] ∧
      parseNum ['0', '5', '.', '2'] = 26 / 5) ∧
    (∀ (s : CalcState) (t : List Char), s.entry = some t → t ≠ [] →
      getRegister (finalizeEntry s) 0 = parseNum ('0' :: t) ∧
      (finalizeEntry s).entry = none) := by
  constructor
  · intro s hs
    constructor
    · have e1 : enterDigit '5' s = { s with stack := 0 :: s.stack, entry := some ['5'] } := by
        simp +decide [enterDigit, push, finalizeEntry, hs, partitionDot, PRECISION]
      have e2 : decimal { s with stack := 0 :: s.stack, entry := some ['5'] }
          = { s with stack := 0 :: s.stack, entry := some ['5', '.'] } := by
        simp +decide [decimal]
      have e3 : enterDigit '2' { s with stack := 0 :: s.stack, entry := some ['5', '.'] }
          = { s with stack := 0 :: s.stack, entry := some ['5', '.', '2'] } := by
        simp +decide [enterDigit, partitionDot, PRECISION]
      have e4 : finalizeEntry { s with stack := 0 :: s.stack, entry := some ['5', '.', '2'] }
          = { s with stack := parseNum ['0', '5', '.', '2'] :: s.stack, entry := none } := by
        simp [finalizeEntry, setTop]
      rw [e1, e2, e3, e4]
      simp [getRegister]
    · simp +decide [parseNum, partitionDot, parseDigits, parseFrac]
      norm_num
  · intro s t hs htne
    cases t with
    | nil => exact absurd rfl htne
    | cons c cs =>
      constructor
      · simp only [finalizeEntry, hs]
        cases hstk : s.stack with
        | nil => simp [getRegister, setTop]
        | cons a r => simp [getRegister, setTop]
      · simp [finalizeEntry, hs]

/-- C5 witness: the concrete key sequence from the fresh engine state
yields 5.2, and finalizing a buffer holding "5" over a stack [7] parses
"05". -/
theorem entry_sequence_five_point_two_witness :
    getRegister (finalizeEntry (enterDigit '2' (decimal (enterDigit '5' initState)))) 0
        = 26 / 5 ∧
    getRegister (finalizeEntry (⟨some ['5'], [7], [], false⟩ : CalcState)) 0
        = parseNum ['0', '5'] := by
  constructor
  · obtain ⟨h1, h2⟩ := entry_sequence_five_point_two.1 initState rfl
    rw [h1, h2]
  · exact (entry_sequence_five_point_two.2 ⟨some ['5'], [7], [], false⟩ ['5'] rfl
      (by simp)).1

/-- C6: for positions `p, q ≥ 1`, after `saveMemory p` the memory at `p`
reads the register X that was saved (the X of the finalized state), and
reading any position `q` beyond the current memory length yields 0. -/
theorem memory_save_load_roundtrip (s : CalcState) (p q : ℕ) (hp : 1 ≤ p) (_hq : 1 ≤ q)
    (hql : s.memory.length < q) :
    getMemory (saveMemory p s) p = getRegister (finalizeEntry s) 0 ∧
    getMemory s q = 0 := by
  refine ⟨getMemory_saveMemory_self s p hp, ?_⟩
  unfold getMemory
  rw [if_neg (by omega)]

/-- C6 witness: save into position 2 from the state with stack [42] and
read it back; read position 5 of the fresh state. -/
theorem memory_save_load_roundtrip_witness :
    getMemory (saveMemory 2 ⟨none, [42], [], false⟩) 2
        = getRegister (finalizeEntry ⟨none, [42], [], false⟩) 0 ∧
    getMemory initState 5 = 0 := by
  have h := memory_save_load_roundtrip ⟨none, [42], [], false⟩ 2 5 (by decide) (by decide)
    (by decide)
  exact ⟨h.1, (memory_save_load_roundtrip initState 2 5 (by decide) (by decide) (by decide)).2⟩

/-- C7: calling `pop` in a reachable state whose stack is empty returns 0
and leaves the state unchanged (stack still empty, no error raised — the
operation is total). -/
theorem pop_empty_stack (s : CalcState) (hr : Reachable s) (hs : s.stack = []) :
    pop s = (0, s) := by
  have hinv := reachable_inv hr
  have hentry : s.entry = none := by
    cases he : s.entry with
    | none => rfl
    | some t => exact absurd hs (hinv t he).2.1
  exact pop_finalized_nil (Or.inl hentry) hs

/-- C7 witness: popping the fresh empty engine state returns 0 and changes
nothing. -/
theorem pop_empty_stack_witness : pop initState = (0, initState) :=
  pop_empty_stack initState Reachable.init rfl

/-- C8: in every reachable state whose entry buffer is active, the
whole-part and fractional-part digit counts of the buffer text (split on
the first dot) are each at most PRECISION. -/
theorem entry_digit_bounds (s : CalcState) (t : List Char) (hr : Reachable s)
    (ht : s.entry = some t) :
    (partitionDot t).1.length ≤ PRECISION ∧ (partitionDot t).2.2.length ≤ PRECISION :=
  ⟨(reachable_inv hr t ht).2.2.1, (reachable_inv hr t ht).2.2.2⟩

/-- C8 witness: the state reached by pressing digit 5 once has buffer "5",
whose parts are within bounds. -/
theorem entry_digit_bounds_witness :
    (partitionDot ['5']).1.length ≤ PRECISION ∧ (partitionDot ['5']).2.2.length ≤ PRECISION :=
  entry_digit_bounds (enterDigit '5' initState) ['5']
    (Reachable.step Reachable.init (Step.ofEnterDigit initState '5' (by decide)))
    (by rfl)

/-- C10: `saveMemory p` (for `p ≥ 1`) leaves the stack (and buffer) exactly
as finalizing the pending entry leaves them — register X is read, not
popped — and changes memory only at slot `p`, which receives X; every
other position reads as before (unset positions still read 0). -/
theorem saveMemory_frame (s : CalcState) (p : ℕ) (hp : 1 ≤ p) :
    (saveMemory p s).stack = (finalizeEntry s).stack ∧
    (saveMemory p s).entry = (finalizeEntry s).entry ∧
    getMemory (saveMemory p s) p = getRegister (finalizeEntry s) 0 ∧
    ∀ q, 1 ≤ q → q ≠ p → getMemory (saveMemory p s) q = getMemory s q := by
  refine ⟨rfl, rfl, getMemory_saveMemory_self s p hp, ?_⟩
  intro q hq hqp
  unfold getMemory
  simp only [saveMemory_memory, List.length_set, finalizeEntry_memory]
  by_cases hqe : q ≤ (padMemory s.memory p).length
  · rw [if_pos hqe, getD_set_ne _ _ _ _ (by omega), getD_padMemory]
    by_cases hqm : q ≤ s.memory.length
    · rw [if_pos hqm]
    · rw [if_neg hqm, List.getD_eq_default _ _ (by omega)]
  · rw [if_neg hqe, if_neg (by have := length_le_padMemory s.memory p; omega)]

/-- C10 witness: saving to position 1 from the state with stack [9] and
memory [4, 6] keeps the stack, stores 9 at slot 1, and keeps slot 2. -/
theorem saveMemory_frame_witness :
    (saveMemory 1 ⟨none, [9], [4, 6], false⟩).stack
        = (finalizeEntry ⟨none, [9], [4, 6], false⟩).stack ∧
    getMemory (saveMemory 1 ⟨none, [9], [4, 6], false⟩) 1
        = getRegister (finalizeEntry ⟨none, [9], [4, 6], false⟩) 0 ∧
    getMemory (saveMemory 1 ⟨none, [9], [4, 6], false⟩) 2
        = getMemory ⟨none, [9], [4, 6], false⟩ 2 := by
  obtain ⟨h1, _, h3, h4⟩ := saveMemory_frame ⟨none, [9], [4, 6], false⟩ 1 (by decide)
  exact ⟨h1, h3, h4 2 (by decide) (by decide)⟩

/-- C1 (amended): for every arity-1 or arity-2 Operation press whose stored
function fails (raises, modelled as `none`) or whose result trips the
overflow check, the press signals the error indicator and afterwards the
registers read exactly as they did after finalizing the pending entry —
identical to before the press whenever the buffer was idle.  No exception
escapes: `do1`/`do2` are total. -/
theorem op_failure_restores (f : ℚ → Option ℚ) (g : ℚ → ℚ → Option ℚ) (s : CalcState) :
    (fails1 f (pop (finalizeEntry s)).1 = true →
      getRegister (do1 f s) = getRegister (finalizeEntry s) ∧ (do1 f s).err = true) ∧
    (fails2 g (pop (finalizeEntry s)).1 (pop (pop (finalizeEntry s)).2).1 = true →
      getRegister (do2 g s) = getRegister (finalizeEntry s) ∧ (do2 g s).err = true) := by
  have hfin : Finalized (finalizeEntry s) := finalized_finalizeEntry s
  constructor
  · intro hf
    rw [← do1_finalize f s, do1_failure hfin f hf]
    refine ⟨?_, rfl⟩
    rw [getRegister_errOn]
    exact getRegister_restore1 hfin
  · intro hg
    rw [← do2_finalize g s, do2_failure hfin g hg]
    refine ⟨?_, rfl⟩
    rw [getRegister_errOn]
    exact getRegister_restore2 hfin

/-- C1 witness: pressing 1/x (arity 1) and / (arity 2) on the fresh state
pops X = 0, the functions raise, the registers are restored and the error
indicator is signaled. -/
theorem op_failure_restores_witness :
    getRegister (do1 recipLam initState) = getRegister (finalizeEntry initState) ∧
    (do1 recipLam initState).err = true ∧
    getRegister (do2 divLam initState) = getRegister (finalizeEntry initState) ∧
    (do2 divLam initState).err = true := by
  obtain ⟨ha, hb⟩ := op_failure_restores recipLam divLam initState
  have hf1 : fails1 recipLam (pop (finalizeEntry initState)).1 = true := by
    simp [fails1, recipLam, pop, finalizeEntry, initState]
  have hf2 : fails2 divLam (pop (finalizeEntry initState)).1
      (pop (pop (finalizeEntry initState)).2).1 = true := by
    simp [fails2, divLam, pop, finalizeEntry, initState]
  exact ⟨(ha hf1).1, (ha hf1).2, (hb hf2).1, (hb hf2).2⟩

/-- C1 counterexample: in the engine state reached by typing eight 9s
(stack [0], buffer "99999999"), pressing Sqr is a failing press (the
square trips the overflow check), yet afterwards register X reads
99999999, not the 0 it read before the press: the press first finalizes
the pending entry into the top register. -/
theorem op_failure_restores_cex :
    fails1 sqrLam
        (pop (finalizeEntry
          ⟨some ['9', '9', '9', '9', '9', '9', '9', '9'], [0], [], false⟩)).1 = true ∧
    getRegister (⟨some ['9', '9', '9', '9', '9', '9', '9', '9'], [0], [], false⟩ :
        CalcState) 0 = 0 ∧
    getRegister
        (do1 sqrLam ⟨some ['9', '9', '9', '9', '9', '9', '9', '9'], [0], [], false⟩) 0
      = 99999999 := by
  have h0 : finalizeEntry ⟨some ['9', '9', '9', '9', '9', '9', '9', '9'], [0], [], false⟩
      = ⟨none, [99999999], [], false⟩ := by
    simp +decide [finalizeEntry, setTop, parseNum, partitionDot, parseDigits, parseFrac]
    norm_num
  have hp : pop (⟨none, [(99999999 : ℚ)], [], false⟩ : CalcState)
      = (99999999, ⟨none, [], [], false⟩) :=
    pop_finalized_cons (Or.inl rfl) rfl
  have hfail' : fails1 sqrLam (pop (⟨none, [(99999999 : ℚ)], [], false⟩ : CalcState)).1
      = true := by
    simp only [hp, fails1, sqrLam, decide_eq_true_eq]
    norm_num [PRECISION]
  have hfail : fails1 sqrLam
      (pop (finalizeEntry
        ⟨some ['9', '9', '9', '9', '9', '9', '9', '9'], [0], [], false⟩)).1 = true := by
    rw [h0]
    exact hfail'
  refine ⟨hfail, rfl, ?_⟩
  have hdo : do1 sqrLam ⟨some ['9', '9', '9', '9', '9', '9', '9', '9'], [0], [], false⟩
      = errOn (push 99999999 ⟨none, [], [], false⟩) := by
    rw [← do1_finalize sqrLam, h0,
      do1_failure (show Finalized (⟨none, [(99999999 : ℚ)], [], false⟩ : CalcState)
        from Or.inl rfl) sqrLam hfail']
    simp only [hp]
  rw [hdo]
  simp [getRegister, push, finalizeEntry]

/-- C2: the claim reads the overflow check as a magnitude test, and the
source's own docstring promises to reject any "result [that] exceeds the
calculator's defined precision"; but the code compares the signed value
(`value >= 10 ** PRECISION`, src/Calculator.py:95,108), so a result of
-10^10 — whose magnitude exceeds 10^PRECISION — is pushed with no error:
pressing * with X = -100000, Y = 100000 yields stack [-10^10] and a clear
error indicator instead of restoring the operands. -/
theorem overflow_check_signed :
    (10 : ℚ) ^ PRECISION ≤ |(-10000000000 : ℚ)| ∧
    do2 mulLam ⟨none, [-100000, 100000], [], false⟩
      = ⟨none, [-10000000000], [], false⟩ := by
  constructor
  · norm_num [PRECISION]
  · have h := do2_success
      (show Finalized (⟨none, [-100000, 100000], [], false⟩ : CalcState) from Or.inl rfl)
      (show (⟨none, [-100000, 100000], [], false⟩ : CalcState).stack
        = (-100000 : ℚ) :: (100000 : ℚ) :: [] from rfl)
      mulLam (show mulLam (-100000) 100000 = some (-10000000000) from by norm_num [mulLam])
      (by norm_num [PRECISION])
    exact h

/-- C3 (amended): from an empty stack with an idle buffer, pushing y then
x and pressing the subtraction button leaves the stack [y - x], provided
y - x does not trip the overflow check (y - x < 10^PRECISION); at or above
that threshold the press restores the operands instead. -/
theorem sub_button_correct (s : CalcState) (x y : ℚ) (hs : s.stack = [])
    (he : s.entry = none) (hov : y - x < (10 : ℚ) ^ PRECISION) :
    (do2 subLam (push x (push y s))).stack = [y - x] := by
  have hfin : Finalized s := Or.inl he
  have h1 : push y s = { s with stack := y :: s.stack } := push_finalized hfin y
  have h2 : push x { s with stack := y :: s.stack }
      = { s with stack := x :: y :: s.stack } :=
    push_finalized (show Finalized { s with stack := y :: s.stack } from hfin) x
  rw [h1, h2, do2_success (show Finalized { s with stack := x :: y :: s.stack } from hfin)
    (show ({ s with stack := x :: y :: s.stack }).stack = x :: y :: s.stack from rfl)
    subLam (show subLam x y = some (y - x) from rfl) (not_le.mpr hov)]
  simp [hs]

/-- C3 witness: pushing 3 then 1 and pressing − yields stack [2]. -/
theorem sub_button_correct_witness :
    (do2 subLam (push 1 (push 3 initState))).stack = [(3 : ℚ) - 1] :=
  sub_button_correct initState 1 3 rfl rfl (by norm_num [PRECISION])

/-- C3 counterexample: with y = 10^PRECISION and x = 0 the subtraction's
result equals 10^PRECISION, the press is treated as an overflow failure,
and the stack is not [y - x] — the claim quantifies over all finite x, y
with no overflow proviso. -/
theorem sub_button_cex :
    (do2 subLam (push 0 (push ((10 : ℚ) ^ PRECISION) initState))).stack
      ≠ [(10 : ℚ) ^ PRECISION - 0] := by
  have h1 : push ((10 : ℚ) ^ PRECISION) initState
      = ⟨none, [(10 : ℚ) ^ PRECISION], [], false⟩ := rfl
  have h2 : push 0 (⟨none, [(10 : ℚ) ^ PRECISION], [], false⟩ : CalcState)
      = ⟨none, [0, (10 : ℚ) ^ PRECISION], [], false⟩ := rfl
  have hp1 : pop (⟨none, [0, (10 : ℚ) ^ PRECISION], [], false⟩ : CalcState)
      = (0, ⟨none, [(10 : ℚ) ^ PRECISION], [], false⟩) :=
    pop_finalized_cons (Or.inl rfl) rfl
  have hp2 : pop (⟨none, [(10 : ℚ) ^ PRECISION], [], false⟩ : CalcState)
      = ((10 : ℚ) ^ PRECISION, ⟨none, [], [], false⟩) :=
    pop_finalized_cons (Or.inl rfl) rfl
  have hfail : fails2 subLam
      (pop (⟨none, [0, (10 : ℚ) ^ PRECISION], [], false⟩ : CalcState)).1
      (pop (pop (⟨none, [0, (10 : ℚ) ^ PRECISION], [], false⟩ : CalcState)).2).1 = true := by
    simp only [hp1, hp2, fails2, subLam, decide_eq_true_eq]
    norm_num
  rw [h1, h2, do2_failure (show Finalized
      (⟨none, [0, (10 : ℚ) ^ PRECISION], [], false⟩ : CalcState) from Or.inl rfl)
    subLam hfail]
  simp only [hp1, hp2]
  rw [push_finalized (show Finalized (⟨none, [], [], false⟩ : CalcState) from Or.inl rfl),
    push_finalized (show Finalized (⟨none, [(10 : ℚ) ^ PRECISION], [], false⟩ : CalcState)
      from Or.inl rfl)]
  simp

/-- C4 (amended): `exchange` swaps the values read as registers X and Y of
the state with the pending entry finalized (identical to the pre-press
state when the buffer is idle): afterwards register 0 reads what register
1 of the finalized state read, register 1 reads that state's register 0,
and every register at index at least 2 is unchanged, reads past the stack
depth defaulting to 0. -/
theorem exchange_swaps_registers (s : CalcState) :
    getRegister (exchange s) 0 = getRegister (finalizeEntry s) 1 ∧
    getRegister (exchange s) 1 = getRegister (finalizeEntry s) 0 ∧
    ∀ i, 2 ≤ i → getRegister (exchange s) i = getRegister (finalizeEntry s) i := by
  have hfin : Finalized (finalizeEntry s) := finalized_finalizeEntry s
  rcases hst : (finalizeEntry s).stack with _ | ⟨a, _ | ⟨b, r'⟩⟩
  · have h1 : pop (finalizeEntry s) = (0, finalizeEntry s) := pop_finalized_nil hfin hst
    have hex : exchange s = { finalizeEntry s with stack := [0, 0] } := by
      rw [exchange_def]
      simp only [h1]
      rw [push_finalized hfin,
        push_finalized (show Finalized { finalizeEntry s with
          stack := 0 :: (finalizeEntry s).stack } from hfin)]
      simp [hst]
    rw [hex]
    refine ⟨by simp [getRegister, hst], by simp [getRegister, hst], ?_⟩
    intro i hi
    simp only [getRegister, hst]
    rw [List.getD_eq_default _ _ (by simp; omega), List.getD_eq_default _ _ (by simp)]
  · have h1 : pop (finalizeEntry s) = (a, { finalizeEntry s with stack := [] }) :=
      pop_finalized_cons hfin hst
    have h2 : pop { finalizeEntry s with stack := (@List.nil ℚ) }
        = (0, { finalizeEntry s with stack := [] }) :=
      pop_finalized_nil (show Finalized _ from hfin) rfl
    have hex : exchange s = { finalizeEntry s with stack := [0, a] } := by
      rw [exchange_def]
      simp only [h1, h2]
      rw [push_finalized (show Finalized { finalizeEntry s with stack := (@List.nil ℚ) }
          from hfin),
        push_finalized (show Finalized { finalizeEntry s with stack := [a] } from hfin)]
    rw [hex]
    refine ⟨by simp [getRegister, hst], by simp [getRegister, hst], ?_⟩
    intro i hi
    obtain ⟨j, rfl⟩ : ∃ j, i = j + 2 := ⟨i - 2, by omega⟩
    simp [getRegister, hst]
  · have h1 : pop (finalizeEntry s) = (a, { finalizeEntry s with stack := b :: r' }) :=
      pop_finalized_cons hfin hst
    have h2 : pop { finalizeEntry s with stack := b :: r' }
        = (b, { finalizeEntry s with stack := r' }) :=
      pop_finalized_cons (show Finalized { finalizeEntry s with stack := b :: r' }
        from hfin) rfl
    have hex : exchange s = { finalizeEntry s with stack := b :: a :: r' } := by
      rw [exchange_def]
      simp only [h1, h2]
      rw [push_finalized (show Finalized { finalizeEntry s with stack := r' } from hfin),
        push_finalized (show Finalized { finalizeEntry s with stack := a :: r' }
          from hfin)]
    rw [hex]
    refine ⟨by simp [getRegister, hst], by simp [getRegister, hst], ?_⟩
    intro i hi
    obtain ⟨j, rfl⟩ : ∃ j, i = j + 2 := ⟨i - 2, by omega⟩
    simp [getRegister, hst]

/-- C4 witness: exchanging the fresh empty state swaps two zero reads and
leaves register 2 reading 0. -/
theorem exchange_swaps_registers_witness :
    getRegister (exchange initState) 0 = getRegister (finalizeEntry initState) 1 ∧
    getRegister (exchange initState) 2 = getRegister (finalizeEntry initState) 2 := by
  obtain ⟨h1, _, h3⟩ := exchange_swaps_registers initState
  exact ⟨h1, h3 2 (by decide)⟩

/-- C4 counterexample: in the state with stack [0] and pending entry "5"
(reached by pressing digit 5), register 0 reads 0 before the exchange, but
after the exchange register 1 reads 5, not the 0 the claim demands —
`exchange` first finalizes the entry into the top register. -/
theorem exchange_swaps_registers_cex :
    getRegister (exchange ⟨some ['5'], [0], [], false⟩) 1
      ≠ getRegister (⟨some ['5'], [0], [], false⟩ : CalcState) 0 := by
  have h0 : finalizeEntry ⟨some ['5'], [0], [], false⟩ = ⟨none, [5], [], false⟩ := by
    simp +decide [finalizeEntry, setTop, parseNum, partitionDot, parseDigits, parseFrac]
  have h1 : pop (⟨none, [(5 : ℚ)], [], false⟩ : CalcState) = (5, ⟨none, [], [], false⟩) :=
    pop_finalized_cons (Or.inl rfl) rfl
  have h2 : pop (⟨none, [], [], false⟩ : CalcState) = (0, ⟨none, [], [], false⟩) :=
    pop_finalized_nil (Or.inl rfl) rfl
  have hex : exchange ⟨some ['5'], [0], [], false⟩ = ⟨none, [0, 5], [], false⟩ := by
    rw [exchange_def, h0]
    simp only [h1, h2]
    rw [push_finalized (show Finalized (⟨none, [], [], false⟩ : CalcState) from Or.inl rfl),
      push_finalized (show Finalized (⟨none, [(5 : ℚ)], [], false⟩ : CalcState)
        from Or.inl rfl)]
  rw [hex]
  simp [getRegister]

/-- C9 (amended): when the entry buffer is idle and register X reads 0,
pressing the division button raises no exception (`do2` is total, the
ZeroDivisionError is modelled by `divLam` returning `none`), Y then X are
pushed back so the registers read as before the press, and the error
indicator is signaled. -/
theorem div_by_zero_restores (s : CalcState) (he : s.entry = none)
    (hx : getRegister s 0 = 0) :
    getRegister (do2 divLam s) = getRegister s ∧ (do2 divLam s).err = true := by
  have hfin : Finalized s := Or.inl he
  have hfail : fails2 divLam (pop s).1 (pop (pop s).2).1 = true := by
    rcases hst : s.stack with _ | ⟨x, r⟩
    · have h1 : pop s = (0, s) := pop_finalized_nil hfin hst
      simp [h1, fails2, divLam]
    · have hx0 : x = 0 := by simpa [getRegister, hst] using hx
      subst hx0
      have h1 : pop s = (0, { s with stack := r }) := pop_finalized_cons hfin hst
      simp [h1, fails2, divLam]
  rw [do2_failure hfin divLam hfail]
  refine ⟨?_, rfl⟩
  rw [getRegister_errOn]
  exact getRegister_restore2 hfin

/-- C9 witness: dividing with stack [0, 3] (X = 0, Y = 3) restores both
operands and signals the error indicator. -/
theorem div_by_zero_restores_witness :
    getRegister (do2 divLam ⟨none, [0, 3], [], false⟩)
        = getRegister (⟨none, [0, 3], [], false⟩ : CalcState) ∧
    (do2 divLam ⟨none, [0, 3], [], false⟩).err = true :=
  div_by_zero_restores ⟨none, [0, 3], [], false⟩ rfl rfl

/-- C9 counterexample: in the state with stack [0, 3] and pending entry
"5", register X reads 0, yet pressing / finalizes the entry first, divides
3 by 5, and signals no error — the claim's conclusion fails although its
hypothesis (register X reads 0) holds. -/
theorem div_by_zero_restores_cex :
    getRegister (⟨some ['5'], [0, 3], [], false⟩ : CalcState) 0 = 0 ∧
    (do2 divLam ⟨some ['5'], [0, 3], [], false⟩).err = false := by
  refine ⟨rfl, ?_⟩
  have h0 : finalizeEntry ⟨some ['5'], [0, 3], [], false⟩ = ⟨none, [5, 3], [], false⟩ := by
    simp +decide [finalizeEntry, setTop, parseNum, partitionDot, parseDigits, parseFrac]
  have hdo : do2 divLam ⟨some ['5'], [0, 3], [], false⟩
      = { (⟨none, [5, 3], [], false⟩ : CalcState) with stack := [3 / 5] } := by
    rw [← do2_finalize divLam, h0]
    exact do2_success (Or.inl rfl) rfl divLam (by norm_num [divLam]) (by norm_num [PRECISION])
  rw [hdo]

end Calculator
